import Mathlib

/-!
# Verification of the timestamp-keyed binary search tree (`BST_ADT.c`)

The tree operations of `BST_ADT.c` are embedded twice:

* as functions on an inductive tree (`insert_node`, `search_node`,
  `inorder_traversal`), where a `bst_node_t*` is the subtree it points to and
  `NULL` is the empty tree;
* as functions on an explicit memory of node cells (`Mem.insert_node`,
  `Mem.search_node`, `Mem.inorder_traversal`, `Mem.delete_tree`), where a
  `bst_node_t*` is an address, `0` is `NULL` and `free` releases a cell.  This
  level is what `delete_tree` needs: it returns `void` and only changes memory.

The two levels are tied together by `Mem.tree_at`: the memory functions run on
a well-formed copy of a tree compute what the tree functions compute
(`mem_insert_node_refines`, `mem_search_node_refines`,
`mem_inorder_traversal_refines`), and the `free` calls of `delete_tree` follow
the post-order of that copy (`delete_tree_frees`, `mem_postorder_refines`).

`time_t` is a signed integer, embedded as `Int`; the `uint32_t` payload fields
are only copied, never computed with, and are embedded as `Nat`.
-/

/-! ## Data model (`BST_ADT.h`) -/

/-- Record `temp_humid_data_t`: a timestamp (the key) with its two readings. -/
structure temp_humid_data_t where
  timestamp : Int
  temp : Nat
  humid : Nat
  deriving DecidableEq, Repr

/-- Tree `bst_node_t*`: either `NULL` or a node owning a record and two subtrees. -/
inductive bst_node_t where
  | NULL : bst_node_t
  | node (data : temp_humid_data_t) (left right : bst_node_t) : bst_node_t
  deriving DecidableEq, Repr

/-! ## Operations (`BST_ADT.c`) on the inductive tree -/

/-- Function `create_node`: a fresh node holding `data`, both children `NULL`
(the allocation is taken to succeed; on failure the C code exits the process). -/
def create_node (data : temp_humid_data_t) : bst_node_t :=
  .node data .NULL .NULL

/-- Function `insert_node`: descend by timestamp, create a node at the `NULL`
reached, leave the tree alone when the timestamp is already there. -/
def insert_node : bst_node_t → temp_humid_data_t → bst_node_t
  | .NULL, data => create_node data
  | .node d l r, data =>
    if data.timestamp < d.timestamp then
      .node d (insert_node l data) r
    else if data.timestamp > d.timestamp then
      .node d l (insert_node r data)
    else
      .node d l r

/-- Function `search_node`: the node (as the subtree it roots) holding
`timestamp`, or `NULL`. -/
def search_node : bst_node_t → Int → bst_node_t
  | .NULL, _ => .NULL
  | .node d l r, timestamp =>
    if d.timestamp = timestamp then
      .node d l r
    else if timestamp < d.timestamp then
      search_node l timestamp
    else
      search_node r timestamp

/-- Function `inorder_traversal`: the records in the order they are printed
(left subtree, node, right subtree). -/
def inorder_traversal : bst_node_t → List temp_humid_data_t
  | .NULL => []
  | .node d l r => inorder_traversal l ++ d :: inorder_traversal r

/-- The caller's loop `root = insert_node(root, records[i])` over a sequence
of records (`populateBST`, `test_bst_operations`). -/
def insert_all (root : bst_node_t) (records : List temp_humid_data_t) : bst_node_t :=
  records.foldl insert_node root

/-! ## Specification vocabulary -/

/-- Every record stored in the tree satisfies `P`. -/
def all_nodes (P : temp_humid_data_t → Prop) : bst_node_t → Prop
  | .NULL => True
  | .node d l r => P d ∧ all_nodes P l ∧ all_nodes P r

/-- The ordering invariant: at every node, the left subtree holds strictly
smaller timestamps and the right subtree strictly greater ones. -/
def bst_ordered : bst_node_t → Prop
  | .NULL => True
  | .node d l r =>
    all_nodes (fun x => x.timestamp < d.timestamp) l ∧
    all_nodes (fun x => d.timestamp < x.timestamp) r ∧
    bst_ordered l ∧ bst_ordered r

instance all_nodes_decidable (P : temp_humid_data_t → Prop) [DecidablePred P] :
    (t : bst_node_t) → Decidable (all_nodes P t)
  | .NULL => isTrue trivial
  | .node d l r =>
    have := all_nodes_decidable P l
    have := all_nodes_decidable P r
    inferInstanceAs (Decidable (P d ∧ all_nodes P l ∧ all_nodes P r))

instance bst_ordered_decidable : (t : bst_node_t) → Decidable (bst_ordered t)
  | .NULL => isTrue trivial
  | .node d l r =>
    have := bst_ordered_decidable l
    have := bst_ordered_decidable r
    inferInstanceAs (Decidable
      (all_nodes (fun x => x.timestamp < d.timestamp) l ∧
       all_nodes (fun x => d.timestamp < x.timestamp) r ∧
       bst_ordered l ∧ bst_ordered r))

/-- Number of nodes of the tree. -/
def node_count : bst_node_t → Nat
  | .NULL => 0
  | .node _ l r => node_count l + 1 + node_count r

/-- Height counted in nodes on the longest root-to-leaf path. -/
def height : bst_node_t → Nat
  | .NULL => 0
  | .node _ l r => max (height l) (height r) + 1

/-- No node of the tree has a left child. -/
def no_left_child : bst_node_t → Prop
  | .NULL => True
  | .node _ l r => l = .NULL ∧ no_left_child r

/-- The record read through a returned pointer (`result->data`), nothing for
`NULL`. -/
def node_data : bst_node_t → Option temp_humid_data_t
  | .NULL => none
  | .node d _ _ => some d

/-- Node `s` (a non-`NULL` pointer, as the subtree it roots) is one of the
nodes of the tree `t`. -/
def is_node_of (s : bst_node_t) : bst_node_t → Prop
  | .NULL => False
  | .node d l r => s = .node d l r ∨ is_node_of s l ∨ is_node_of s r

instance is_node_of_decidable (s : bst_node_t) : (t : bst_node_t) → Decidable (is_node_of s t)
  | .NULL => isFalse (fun h => h)
  | .node d l r =>
    have := is_node_of_decidable s l
    have := is_node_of_decidable s r
    inferInstanceAs (Decidable (s = .node d l r ∨ is_node_of s l ∨ is_node_of s r))

/-- The test data of `test_bst_operations`. -/
def data1 : temp_humid_data_t := ⟨1001, 55, 60⟩
def data2 : temp_humid_data_t := ⟨1002, 65, 65⟩
def data3 : temp_humid_data_t := ⟨1000, 43, 55⟩
def data4 : temp_humid_data_t := ⟨1003, 34, 70⟩

/-! ## Operations (`BST_ADT.c`) on explicit memory

`delete_tree` returns nothing and takes its pointer by value: all it does is
`free` cells.  To say what holds afterwards, a pointer is an address (`0` is
`NULL`), memory maps addresses to allocated cells, and reading or freeing an
address that holds no allocated cell is a fault (undefined behaviour in C).
The recursion follows pointers, so it is bounded by a fuel argument.
-/

/-- One allocated `struct bst_node`: the record and the addresses of the two
children. -/
structure bst_cell where
  data : temp_humid_data_t
  left : Nat
  right : Nat
  deriving DecidableEq, Repr

/-- Memory of node cells: `cell a = none` when no node is allocated at `a`;
`freed` logs the addresses passed to `free`, oldest first. -/
structure Memory where
  cell : Nat → Option bst_cell
  freed : List Nat

/-- Result of running a function on memory: it returns, or it touches an
address that holds no allocated node, or it ends the process with `exit`, or
the fuel does not cover the depth of the recursion. -/
inductive Outcome (α : Type) where
  | ok (a : α) : Outcome α
  | fault : Outcome α
  | exited : Outcome α
  | out_of_fuel : Outcome α
  deriving DecidableEq, Repr

namespace Mem

/-- Library call `free(p)`: no effect on `NULL`, releases an allocated cell,
faults on anything else (double free, wild pointer). -/
def free (m : Memory) (p : Nat) : Outcome Memory :=
  if p = 0 then .ok m
  else
    match m.cell p with
    | none => .fault
    | some _ => .ok ⟨fun a => if a = p then none else m.cell a, m.freed ++ [p]⟩

/-- Function `create_node` on memory.  `new_node` is the address `malloc`
returns (`0` when it fails, and then the process exits); the cell there is
initialised with `data` and two `NULL` children. -/
def create_node (new_node : Nat) (m : Memory) (data : temp_humid_data_t) :
    Outcome (Memory × Nat) :=
  if new_node = 0 then .exited
  else
    .ok (⟨fun a => if a = new_node then some ⟨data, 0, 0⟩ else m.cell a, m.freed⟩, new_node)

/-- Function `insert_node` on memory: returns the memory after the call and
the root address returned.  `new_node` is the address `malloc` returns if the
call reaches `create_node`.  On the way back each visited node has its `left`
or `right` field written with the address returned for the subtree. -/
def insert_node : Nat → Nat → Memory → Nat → temp_humid_data_t → Outcome (Memory × Nat)
  | 0, _, _, _, _ => .out_of_fuel
  | fuel + 1, new_node, m, root, data =>
    if root = 0 then create_node new_node m data
    else
      match m.cell root with
      | none => .fault
      | some c =>
        if data.timestamp < c.data.timestamp then
          match insert_node fuel new_node m c.left data with
          | .ok (m1, q) =>
            match m1.cell root with
            | none => .fault
            | some c1 =>
              .ok (⟨fun a => if a = root then some ⟨c1.data, q, c1.right⟩ else m1.cell a,
                m1.freed⟩, root)
          | .fault => .fault
          | .exited => .exited
          | .out_of_fuel => .out_of_fuel
        else if data.timestamp > c.data.timestamp then
          match insert_node fuel new_node m c.right data with
          | .ok (m1, q) =>
            match m1.cell root with
            | none => .fault
            | some c1 =>
              .ok (⟨fun a => if a = root then some ⟨c1.data, c1.left, q⟩ else m1.cell a,
                m1.freed⟩, root)
          | .fault => .fault
          | .exited => .exited
          | .out_of_fuel => .out_of_fuel
        else .ok (m, root)

/-- Function `search_node` on memory: the address of the node holding
`timestamp`, or `0`. -/
def search_node : Nat → Memory → Nat → Int → Outcome Nat
  | 0, _, _, _ => .out_of_fuel
  | fuel + 1, m, root, timestamp =>
    if root = 0 then .ok root
    else
      match m.cell root with
      | none => .fault
      | some c =>
        if c.data.timestamp = timestamp then .ok root
        else if timestamp < c.data.timestamp then search_node fuel m c.left timestamp
        else search_node fuel m c.right timestamp

/-- Function `inorder_traversal` on memory: the records printed. -/
def inorder_traversal : Nat → Memory → Nat → Outcome (List temp_humid_data_t)
  | 0, _, _ => .out_of_fuel
  | fuel + 1, m, root =>
    if root = 0 then .ok []
    else
      match m.cell root with
      | none => .fault
      | some c =>
        match inorder_traversal fuel m c.left with
        | .ok ls =>
          match inorder_traversal fuel m c.right with
          | .ok rs => .ok (ls ++ c.data :: rs)
          | .fault => .fault
          | .exited => .exited
          | .out_of_fuel => .out_of_fuel
        | .fault => .fault
        | .exited => .exited
        | .out_of_fuel => .out_of_fuel

/-- Function `delete_tree` on memory: frees the left subtree, then the right
subtree (its address read from the node after the first call), then the node.
The caller's pointer is passed by value and is not part of the result. -/
def delete_tree : Nat → Memory → Nat → Outcome Memory
  | 0, _, _ => .out_of_fuel
  | fuel + 1, m, root =>
    if root = 0 then .ok m
    else
      match m.cell root with
      | none => .fault
      | some c =>
        match delete_tree fuel m c.left with
        | .ok m1 =>
          match m1.cell root with
          | none => .fault
          | some c1 =>
            match delete_tree fuel m1 c1.right with
            | .ok m2 => free m2 root
            | .fault => .fault
            | .exited => .exited
            | .out_of_fuel => .out_of_fuel
        | .fault => .fault
        | .exited => .exited
        | .out_of_fuel => .out_of_fuel

/-- The caller's loop `root = insert_node(root, records[i])` on memory; each
record comes with the address `malloc` returns if its call allocates. -/
def insert_all (fuel : Nat) : Memory → Nat → List (Nat × temp_humid_data_t) →
    Outcome (Memory × Nat)
  | m, root, [] => .ok (m, root)
  | m, root, (new_node, data) :: rest =>
    match insert_node fuel new_node m root data with
    | .ok (m1, root1) => insert_all fuel m1 root1 rest
    | .fault => .fault
    | .exited => .exited
    | .out_of_fuel => .out_of_fuel

/-- The memory at program start: no node allocated, nothing freed. -/
def empty : Memory :=
  ⟨fun _ => none, []⟩

/-- Post-order of the claim, stated on memory before any node is freed: the
addresses of the nodes of the left subtree, then those of the right subtree,
then the node itself, recursively.  This follows the wording of the claim and
is what the log of `free` calls of `delete_tree` is compared with. -/
def postorder : Nat → Memory → Nat → Outcome (List Nat)
  | 0, _, _ => .out_of_fuel
  | fuel + 1, m, root =>
    if root = 0 then .ok []
    else
      match m.cell root with
      | none => .fault
      | some c =>
        match postorder fuel m c.left with
        | .ok ls =>
          match postorder fuel m c.right with
          | .ok rs => .ok (ls ++ rs ++ [root])
          | .fault => .fault
          | .exited => .exited
          | .out_of_fuel => .out_of_fuel
        | .fault => .fault
        | .exited => .exited
        | .out_of_fuel => .out_of_fuel

/-- Address `p` points to a well-formed copy of the tree `t` in memory:
`NULL` is address `0`, a node is an allocated cell holding its record and the
addresses of its subtrees, and no cell is shared.  The list `fp` collects the
addresses of the nodes of `t`, children before their parent, left before right. -/
def tree_at (cell : Nat → Option bst_cell) : Nat → bst_node_t → List Nat → Prop
  | p, .NULL, fp => p = 0 ∧ fp = []
  | p, .node d l r, fp =>
    p ≠ 0 ∧ ∃ pl pr fl fr, cell p = some ⟨d, pl, pr⟩ ∧
      tree_at cell pl l fl ∧ tree_at cell pr r fr ∧ fp = fl ++ fr ++ [p] ∧ fp.Nodup

/-- Memory reached by `root = insert_node(NULL, data1)` when the allocator
hands out address `1`. -/
def one_node : Memory :=
  ⟨fun a => if a = 1 then some ⟨data1, 0, 0⟩ else none, []⟩

/-- Memory after `delete_tree(root)` on `one_node`: nothing is allocated and
address `1` has been freed. -/
def one_node_freed : Memory :=
  ⟨fun _ => none, [1]⟩

/-- Memory reached by the four inserts of `test_bst_operations` (`data1`,
`data2`, `data3`, `data4`) when the allocator hands out addresses `1` to `4`. -/
def test_tree : Memory :=
  ⟨fun a =>
    if a = 1 then some ⟨data1, 3, 2⟩
    else if a = 2 then some ⟨data2, 0, 4⟩
    else if a = 3 then some ⟨data3, 0, 0⟩
    else if a = 4 then some ⟨data4, 0, 0⟩
    else none, []⟩

end Mem

/-! ## Basic lemmas -/

theorem all_nodes_iff_inorder (P : temp_humid_data_t → Prop) (t : bst_node_t) :
    all_nodes P t ↔ ∀ x ∈ inorder_traversal t, P x := by
  induction t with
  | NULL => simp [all_nodes, inorder_traversal]
  | node d l r ihl ihr =>
    simp only [all_nodes, inorder_traversal, ihl, ihr, List.mem_append, List.mem_cons]
    constructor
    · rintro ⟨hd, hl, hr⟩ x (hx | rfl | hx)
      · exact hl x hx
      · exact hd
      · exact hr x hx
    · intro h
      exact ⟨h d (Or.inr (Or.inl rfl)), fun x hx => h x (Or.inl hx),
        fun x hx => h x (Or.inr (Or.inr hx))⟩

theorem all_nodes_insert_node (P : temp_humid_data_t → Prop) (t : bst_node_t)
    (data : temp_humid_data_t) (ht : all_nodes P t) (hd : P data) :
    all_nodes P (insert_node t data) := by
  induction t with
  | NULL => exact ⟨hd, trivial, trivial⟩
  | node d l r ihl ihr =>
    obtain ⟨h1, h2, h3⟩ := ht
    unfold insert_node
    split_ifs
    · exact ⟨h1, ihl h2, h3⟩
    · exact ⟨h1, h2, ihr h3⟩
    · exact ⟨h1, h2, h3⟩

theorem bst_ordered_insert_node (t : bst_node_t) (data : temp_humid_data_t)
    (ht : bst_ordered t) : bst_ordered (insert_node t data) := by
  induction t with
  | NULL => exact ⟨trivial, trivial, trivial, trivial⟩
  | node d l r ihl ihr =>
    obtain ⟨h1, h2, h3, h4⟩ := ht
    unfold insert_node
    split_ifs with hlt hgt
    · exact ⟨all_nodes_insert_node _ l data h1 hlt, h2, ihl h3, h4⟩
    · exact ⟨h1, all_nodes_insert_node _ r data h2 hgt, h3, ihr h4⟩
    · exact ⟨h1, h2, h3, h4⟩

theorem bst_ordered_insert_all (records : List temp_humid_data_t) (t : bst_node_t)
    (ht : bst_ordered t) : bst_ordered (insert_all t records) := by
  induction records generalizing t with
  | nil => exact ht
  | cons r rs ih => exact ih _ (bst_ordered_insert_node t r ht)

theorem inorder_sorted_of_bst_ordered (t : bst_node_t) (ht : bst_ordered t) :
    ((inorder_traversal t).map (·.timestamp)).Pairwise (· < ·) := by
  induction t with
  | NULL => simp [inorder_traversal]
  | node d l r ihl ihr =>
    obtain ⟨h1, h2, h3, h4⟩ := ht
    rw [all_nodes_iff_inorder] at h1 h2
    simp only [inorder_traversal, List.map_append, List.map_cons, List.pairwise_append,
      List.pairwise_cons, List.mem_map, List.mem_cons]
    refine ⟨ihl h3, ⟨?_, ihr h4⟩, ?_⟩
    · rintro a ⟨x, hx, rfl⟩
      exact h2 x hx
    · rintro a ⟨x, hx, rfl⟩ b (rfl | ⟨y, hy, rfl⟩)
      · exact h1 x hx
      · exact lt_trans (h1 x hx) (h2 y hy)

/-! ## Ordering (C1, C2) -/

/-- C1: for every finite sequence of records, the tree built from `NULL` by
one `insert_node` per record has an in-order traversal whose timestamps are
strictly increasing. -/
theorem C1_inorder_strictly_increasing (records : List temp_humid_data_t) :
    ((inorder_traversal (insert_all .NULL records)).map (·.timestamp)).Pairwise (· < ·) :=
  inorder_sorted_of_bst_ordered _ (bst_ordered_insert_all records .NULL trivial)

/-- C2: the ordering invariant holds for the empty tree and, for every tree
satisfying it and every record, for the tree returned by `insert_node`. -/
theorem C2_insert_preserves_ordering :
    bst_ordered .NULL ∧
    ∀ (t : bst_node_t) (data : temp_humid_data_t),
      bst_ordered t → bst_ordered (insert_node t data) :=
  ⟨trivial, bst_ordered_insert_node⟩

/-- Witness for C2 on the tree of `test_bst_operations`. -/
theorem C2_insert_preserves_ordering_witness :
    bst_ordered (insert_all .NULL [data1, data2, data3]) ∧
    bst_ordered (insert_node (insert_all .NULL [data1, data2, data3]) data4) :=
  ⟨by decide, C2_insert_preserves_ordering.2 _ data4 (by decide)⟩

/-! ## Search, membership and shape (C3 to C8) -/

theorem first_with_cons (r : temp_humid_data_t) (rs : List temp_humid_data_t) (k : Int) :
    (r :: rs).find? (fun y => decide (y.timestamp = k)) =
      if r.timestamp = k then some r else rs.find? (fun y => decide (y.timestamp = k)) := by
  by_cases h : r.timestamp = k <;> simp [List.find?_cons, h]

theorem search_node_sound (t : bst_node_t) (k : Int) (d : temp_humid_data_t)
    (l r : bst_node_t) (h : search_node t k = .node d l r) :
    d.timestamp = k ∧ d ∈ inorder_traversal t := by
  induction t with
  | NULL => simp [search_node] at h
  | node e tl tr ihl ihr =>
    unfold search_node at h
    simp only [inorder_traversal, List.mem_append, List.mem_cons]
    split_ifs at h with h1 h2
    · injection h with hd _ _
      subst hd
      exact ⟨h1, Or.inr (Or.inl rfl)⟩
    · exact ⟨(ihl h).1, Or.inl (ihl h).2⟩
    · exact ⟨(ihr h).1, Or.inr (Or.inr (ihr h).2)⟩

theorem search_node_complete (t : bst_node_t) (ht : bst_ordered t) (x : temp_humid_data_t)
    (hx : x ∈ inorder_traversal t) :
    ∃ l r, search_node t x.timestamp = .node x l r := by
  induction t with
  | NULL => simp [inorder_traversal] at hx
  | node e tl tr ihl ihr =>
    obtain ⟨h1, h2, h3, h4⟩ := ht
    rw [all_nodes_iff_inorder] at h1 h2
    simp only [inorder_traversal, List.mem_append, List.mem_cons] at hx
    unfold search_node
    rcases hx with hx | rfl | hx
    · have hlt := h1 x hx
      rw [if_neg (ne_of_gt hlt), if_pos hlt]
      exact ihl h3 hx
    · exact ⟨tl, tr, by simp⟩
    · have hlt := h2 x hx
      rw [if_neg (ne_of_lt hlt), if_neg (not_lt.mpr (le_of_lt hlt))]
      exact ihr h4 hx

theorem mem_inorder_insert_node (t : bst_node_t) (ht : bst_ordered t)
    (data x : temp_humid_data_t) :
    x ∈ inorder_traversal (insert_node t data) ↔
      x ∈ inorder_traversal t ∨
        (x = data ∧ ∀ y ∈ inorder_traversal t, y.timestamp ≠ data.timestamp) := by
  induction t with
  | NULL => simp [insert_node, create_node, inorder_traversal]
  | node e tl tr ihl ihr =>
    obtain ⟨h1, h2, h3, h4⟩ := ht
    rw [all_nodes_iff_inorder] at h1 h2
    unfold insert_node
    split_ifs with hlt hgt
    · simp only [inorder_traversal, List.mem_append, List.mem_cons, ihl h3]
      constructor
      · rintro ((h | ⟨rfl, h⟩) | h | h)
        · exact Or.inl (Or.inl h)
        · refine Or.inr ⟨rfl, ?_⟩
          rintro y (hy | rfl | hy)
          · exact h y hy
          · exact ne_of_gt hlt
          · exact ne_of_gt (lt_trans hlt (h2 y hy))
        · exact Or.inl (Or.inr (Or.inl h))
        · exact Or.inl (Or.inr (Or.inr h))
      · rintro ((h | h | h) | ⟨rfl, h⟩)
        · exact Or.inl (Or.inl h)
        · exact Or.inr (Or.inl h)
        · exact Or.inr (Or.inr h)
        · exact Or.inl (Or.inr ⟨rfl, fun y hy => h y (Or.inl hy)⟩)
    · simp only [inorder_traversal, List.mem_append, List.mem_cons, ihr h4]
      constructor
      · rintro (h | h | (h | ⟨rfl, h⟩))
        · exact Or.inl (Or.inl h)
        · exact Or.inl (Or.inr (Or.inl h))
        · exact Or.inl (Or.inr (Or.inr h))
        · refine Or.inr ⟨rfl, ?_⟩
          rintro y (hy | rfl | hy)
          · exact ne_of_lt (lt_trans (h1 y hy) hgt)
          · exact ne_of_lt hgt
          · exact h y hy
      · rintro ((h | h | h) | ⟨rfl, h⟩)
        · exact Or.inl h
        · exact Or.inr (Or.inl h)
        · exact Or.inr (Or.inr (Or.inl h))
        · exact Or.inr (Or.inr (Or.inr ⟨rfl, fun y hy => h y (Or.inr (Or.inr hy))⟩))
    · have heq : e.timestamp = data.timestamp :=
        le_antisymm (not_lt.mp hlt) (not_lt.mp hgt)
      simp only [inorder_traversal, List.mem_append, List.mem_cons]
      constructor
      · exact fun h => Or.inl h
      · rintro (h | ⟨_, h⟩)
        · exact h
        · exact absurd heq (h e (Or.inr (Or.inl rfl)))

theorem mem_inorder_insert_all (records : List temp_humid_data_t) (t : bst_node_t)
    (ht : bst_ordered t) (x : temp_humid_data_t) :
    x ∈ inorder_traversal (insert_all t records) ↔
      x ∈ inorder_traversal t ∨
        ((∀ y ∈ inorder_traversal t, y.timestamp ≠ x.timestamp) ∧
          records.find? (fun y => decide (y.timestamp = x.timestamp)) = some x) := by
  induction records generalizing t with
  | nil => simp [insert_all]
  | cons r rs ih =>
    have hstep : insert_all t (r :: rs) = insert_all (insert_node t r) rs := rfl
    rw [hstep, ih _ (bst_ordered_insert_node t r ht), first_with_cons]
    simp only [mem_inorder_insert_node t ht]
    constructor
    · rintro ((h | ⟨rfl, h⟩) | ⟨h, hf⟩)
      · exact Or.inl h
      · exact Or.inr ⟨h, by simp⟩
      · by_cases hin : x ∈ inorder_traversal t
        · exact Or.inl hin
        · refine Or.inr ⟨fun y hy => h y (Or.inl hy), ?_⟩
          by_cases hr : r.timestamp = x.timestamp
          · by_cases hfree : ∀ y ∈ inorder_traversal t, y.timestamp ≠ r.timestamp
            · exact absurd hr (h r (Or.inr ⟨rfl, hfree⟩))
            · push_neg at hfree
              obtain ⟨y, hy, hyr⟩ := hfree
              exact absurd (hyr.trans hr) (h y (Or.inl hy))
          · rw [if_neg hr]
            exact hf
    · rintro (h | ⟨h, hf⟩)
      · exact Or.inl (Or.inl h)
      · by_cases hr : r.timestamp = x.timestamp
        · rw [if_pos hr] at hf
          injection hf with hf
          subst hf
          exact Or.inl (Or.inr ⟨rfl, h⟩)
        · rw [if_neg hr] at hf
          refine Or.inr ⟨?_, hf⟩
          rintro y (hy | ⟨rfl, _⟩)
          · exact h y hy
          · exact hr

theorem mem_inorder_build (records : List temp_humid_data_t) (x : temp_humid_data_t) :
    x ∈ inorder_traversal (insert_all .NULL records) ↔
      records.find? (fun y => decide (y.timestamp = x.timestamp)) = some x := by
  rw [mem_inorder_insert_all records .NULL trivial x]
  simp [inorder_traversal]

theorem insert_node_present (t : bst_node_t) (ht : bst_ordered t) (r : temp_humid_data_t)
    (hk : ∃ x ∈ inorder_traversal t, x.timestamp = r.timestamp) :
    insert_node t r = t := by
  induction t with
  | NULL => simp [inorder_traversal] at hk
  | node e tl tr ihl ihr =>
    obtain ⟨h1, h2, h3, h4⟩ := ht
    rw [all_nodes_iff_inorder] at h1 h2
    obtain ⟨x, hx, hxk⟩ := hk
    simp only [inorder_traversal, List.mem_append, List.mem_cons] at hx
    unfold insert_node
    split_ifs with hlt hgt
    · rcases hx with hx | rfl | hx
      · rw [ihl h3 ⟨x, hx, hxk⟩]
      · exact absurd hxk (ne_of_gt hlt)
      · exact absurd hxk (ne_of_gt (lt_trans hlt (h2 x hx)))
    · rcases hx with hx | rfl | hx
      · exact absurd hxk (ne_of_lt (lt_trans (h1 x hx) hgt))
      · exact absurd hxk (ne_of_lt hgt)
      · rw [ihr h4 ⟨x, hx, hxk⟩]
    · rfl

theorem mem_inorder_insert_node_imp (t : bst_node_t) (data x : temp_humid_data_t)
    (hx : x ∈ inorder_traversal (insert_node t data)) :
    x ∈ inorder_traversal t ∨ x = data := by
  induction t with
  | NULL => simpa [insert_node, create_node, inorder_traversal] using hx
  | node e tl tr ihl ihr =>
    unfold insert_node at hx
    simp only [inorder_traversal, List.mem_append, List.mem_cons]
    split_ifs at hx
    · simp only [inorder_traversal, List.mem_append, List.mem_cons] at hx
      rcases hx with hx | hx | hx
      · rcases ihl hx with h | h
        · exact Or.inl (Or.inl h)
        · exact Or.inr h
      · exact Or.inl (Or.inr (Or.inl hx))
      · exact Or.inl (Or.inr (Or.inr hx))
    · simp only [inorder_traversal, List.mem_append, List.mem_cons] at hx
      rcases hx with hx | hx | hx
      · exact Or.inl (Or.inl hx)
      · exact Or.inl (Or.inr (Or.inl hx))
      · rcases ihr hx with h | h
        · exact Or.inl (Or.inr (Or.inr h))
        · exact Or.inr h
    · simpa [inorder_traversal] using Or.inl hx

theorem mem_inorder_insert_all_imp (records : List temp_humid_data_t) (t : bst_node_t)
    (x : temp_humid_data_t) (hx : x ∈ inorder_traversal (insert_all t records)) :
    x ∈ inorder_traversal t ∨ x ∈ records := by
  induction records generalizing t with
  | nil => exact Or.inl hx
  | cons r rs ih =>
    rcases ih (insert_node t r) hx with h | h
    · rcases mem_inorder_insert_node_imp t r x h with h | h
      · exact Or.inl h
      · exact Or.inr (h ▸ List.mem_cons_self _ _)
    · exact Or.inr (List.mem_cons_of_mem _ h)

theorem insert_node_chain (t : bst_node_t) (data : temp_humid_data_t)
    (hc : no_left_child t) (hlt : all_nodes (fun x => x.timestamp < data.timestamp) t) :
    height (insert_node t data) = height t + 1 ∧ no_left_child (insert_node t data) := by
  induction t with
  | NULL => simp [insert_node, create_node, height, no_left_child]
  | node e tl tr _ ihr =>
    obtain ⟨hl, hr⟩ := hc
    obtain ⟨he, _, htr⟩ := hlt
    subst hl
    unfold insert_node
    rw [if_neg (not_lt.mpr (le_of_lt he)), if_pos he]
    obtain ⟨ih1, ih2⟩ := ihr hr htr
    exact ⟨by simp [height, ih1], rfl, ih2⟩

theorem insert_all_snoc (t : bst_node_t) (records : List temp_humid_data_t)
    (r : temp_humid_data_t) :
    insert_all t (records ++ [r]) = insert_node (insert_all t records) r := by
  simp [insert_all, List.foldl_append]

theorem insert_all_increasing (records : List temp_humid_data_t)
    (hinc : (records.map (·.timestamp)).Pairwise (· < ·)) :
    height (insert_all .NULL records) = records.length ∧
      no_left_child (insert_all .NULL records) := by
  induction records using List.reverseRecOn with
  | nil => exact ⟨rfl, trivial⟩
  | append_singleton rs r ih =>
    rw [List.map_append, List.pairwise_append] at hinc
    obtain ⟨hrs, _, hlast⟩ := hinc
    obtain ⟨ih1, ih2⟩ := ih hrs
    have hall : all_nodes (fun x => x.timestamp < r.timestamp) (insert_all .NULL rs) := by
      rw [all_nodes_iff_inorder]
      intro x hx
      rcases mem_inorder_insert_all_imp rs .NULL x hx with h | h
      · simp [inorder_traversal] at h
      · exact hlast _ (List.mem_map_of_mem _ h) _ (by simp)
    obtain ⟨h1, h2⟩ := insert_node_chain _ r ih2 hall
    rw [insert_all_snoc]
    exact ⟨by simp [h1, ih1], h2⟩

theorem search_first_inserted (records : List temp_humid_data_t)
    (r : temp_humid_data_t) (hr : r ∈ records) :
    ∃ d l rt, search_node (insert_all .NULL records) r.timestamp = .node d l rt ∧
      d.timestamp = r.timestamp ∧
      records.find? (fun y => decide (y.timestamp = r.timestamp)) = some d := by
  have hsome : (records.find? (fun y => decide (y.timestamp = r.timestamp))).isSome := by
    rw [List.find?_isSome]
    exact ⟨r, hr, by simp⟩
  obtain ⟨d, hd⟩ := Option.isSome_iff_exists.mp hsome
  have hdk : d.timestamp = r.timestamp := by simpa using List.find?_some hd
  have hmem : d ∈ inorder_traversal (insert_all .NULL records) := by
    rw [mem_inorder_build, hdk]
    exact hd
  obtain ⟨l, rt, hs⟩ :=
    search_node_complete _ (bst_ordered_insert_all records .NULL trivial) d hmem
  rw [hdk] at hs
  exact ⟨d, l, rt, hs, hdk, hd⟩

/-- C3: for every sequence of records inserted one by one into the empty
tree and every record `r` of it, `search_node` with `r.timestamp` returns a
node, not `NULL`, whose timestamp is `r.timestamp` and whose record is the
first record of the sequence with that timestamp. -/
theorem C3_search_returns_first_inserted (records : List temp_humid_data_t)
    (r : temp_humid_data_t) (hr : r ∈ records) :
    ∃ d l rt, search_node (insert_all .NULL records) r.timestamp = .node d l rt ∧
      d.timestamp = r.timestamp ∧
      records.find? (fun y => decide (y.timestamp = r.timestamp)) = some d :=
  search_first_inserted records r hr

/-- Witness for C3: scenario 3 of the spec, timestamp 1001 inserted a second
time with payload (99, 99). -/
theorem C3_search_returns_first_inserted_witness :
    (⟨1001, 99, 99⟩ : temp_humid_data_t) ∈ [data2, data3, data4, data1, ⟨1001, 99, 99⟩] ∧
    ∃ d l rt,
      search_node (insert_all .NULL [data2, data3, data4, data1, ⟨1001, 99, 99⟩]) 1001 =
        .node d l rt ∧
      d.timestamp = 1001 ∧
      [data2, data3, data4, data1, (⟨1001, 99, 99⟩ : temp_humid_data_t)].find?
        (fun y => decide (y.timestamp = 1001)) = some d :=
  ⟨by decide,
    C3_search_returns_first_inserted [data2, data3, data4, data1, ⟨1001, 99, 99⟩]
      ⟨1001, 99, 99⟩ (by decide)⟩

/-- C4: for every sequence of records inserted one by one into the empty
tree and every timestamp `t` carried by none of them, `search_node` returns
`NULL`; on the empty tree it returns `NULL` for every timestamp. -/
theorem C4_search_absent (records : List temp_humid_data_t) (t : Int)
    (ht : ∀ r ∈ records, r.timestamp ≠ t) :
    search_node (insert_all .NULL records) t = .NULL ∧ search_node .NULL t = .NULL := by
  refine ⟨?_, rfl⟩
  cases hs : search_node (insert_all .NULL records) t with
  | NULL => rfl
  | node d l r =>
    obtain ⟨hk, hmem⟩ := search_node_sound _ t d l r hs
    rcases mem_inorder_insert_all_imp records .NULL d hmem with h | h
    · simp [inorder_traversal] at h
    · exact absurd hk (ht d h)

/-- Witness for C4: the search for 9999 of `test_bst_operations`. -/
theorem C4_search_absent_witness :
    (∀ r ∈ [data1, data2, data3, data4], r.timestamp ≠ 9999) ∧
    search_node (insert_all .NULL [data1, data2, data3, data4]) 9999 = .NULL ∧
    search_node .NULL 9999 = .NULL :=
  ⟨by decide, C4_search_absent [data1, data2, data3, data4] 9999 (by decide)⟩

/-- C5: for every tree satisfying the ordering invariant that contains a node
with timestamp `k`, and every record `r` with `r.timestamp = k`,
`insert_node` returns the input tree itself: same shape, same node count,
same record at every node. -/
theorem C5_insert_duplicate_unchanged (t : bst_node_t) (k : Int) (r : temp_humid_data_t)
    (ht : bst_ordered t) (hk : ∃ x ∈ inorder_traversal t, x.timestamp = k)
    (hr : r.timestamp = k) :
    insert_node t r = t ∧ node_count (insert_node t r) = node_count t ∧
      inorder_traversal (insert_node t r) = inorder_traversal t := by
  have h : insert_node t r = t := insert_node_present t ht r (hr ▸ hk)
  rw [h]
  exact ⟨rfl, rfl, rfl⟩

/-- Witness for C5: re-inserting timestamp 1001 with payload (99, 99) into the
tree of `test_bst_operations`. -/
theorem C5_insert_duplicate_unchanged_witness :
    bst_ordered (insert_all .NULL [data1, data2, data3, data4]) ∧
    insert_node (insert_all .NULL [data1, data2, data3, data4]) ⟨1001, 99, 99⟩ =
      insert_all .NULL [data1, data2, data3, data4] :=
  ⟨by decide,
    (C5_insert_duplicate_unchanged (insert_all .NULL [data1, data2, data3, data4]) 1001
      ⟨1001, 99, 99⟩ (by decide) ⟨data1, by decide, rfl⟩ rfl).1⟩

/-- C6: for every sequence of records inserted one by one into the empty
tree, the in-order traversal holds a record exactly when it is the first
record of the sequence with its timestamp, no timestamp is visited twice, and
the number of records visited is the number of distinct timestamps. -/
theorem C6_inorder_first_per_timestamp (records : List temp_humid_data_t) :
    (∀ x, x ∈ inorder_traversal (insert_all .NULL records) ↔
      records.find? (fun y => decide (y.timestamp = x.timestamp)) = some x) ∧
    ((inorder_traversal (insert_all .NULL records)).map (·.timestamp)).Nodup ∧
    (∀ r ∈ records,
      r.timestamp ∈ (inorder_traversal (insert_all .NULL records)).map (·.timestamp)) ∧
    (inorder_traversal (insert_all .NULL records)).length =
      ((records.map (·.timestamp)).dedup).length := by
  have hsorted := inorder_sorted_of_bst_ordered _ (bst_ordered_insert_all records .NULL trivial)
  have hnodup : ((inorder_traversal (insert_all .NULL records)).map (·.timestamp)).Nodup :=
    hsorted.imp (fun h => ne_of_lt h)
  have hkeys : ∀ r ∈ records,
      r.timestamp ∈ (inorder_traversal (insert_all .NULL records)).map (·.timestamp) := by
    intro r hr
    obtain ⟨d, l, rt, hs, hdk, _⟩ := search_first_inserted records r hr
    exact List.mem_map.mpr ⟨d, (search_node_sound _ _ d l rt hs).2, hdk⟩
  refine ⟨mem_inorder_build records, hnodup, hkeys, ?_⟩
  have hset : ((inorder_traversal (insert_all .NULL records)).map (·.timestamp)).toFinset =
      (records.map (·.timestamp)).toFinset := by
    ext k
    simp only [List.mem_toFinset, List.mem_map]
    constructor
    · rintro ⟨x, hx, rfl⟩
      rcases mem_inorder_insert_all_imp records .NULL x hx with h | h
      · simp [inorder_traversal] at h
      · exact ⟨x, h, rfl⟩
    · rintro ⟨r, hr, rfl⟩
      exact List.mem_map.mp (hkeys r hr)
  rw [← List.card_toFinset, ← hset, List.toFinset_card_of_nodup hnodup, List.length_map]

/-- C7: for every record `r`, `insert_node` on `NULL` returns a tree of
exactly one node that holds `r` and has no left and no right child. -/
theorem C7_insert_into_empty (r : temp_humid_data_t) :
    insert_node .NULL r = .node r .NULL .NULL ∧ node_count (insert_node .NULL r) = 1 :=
  ⟨rfl, rfl⟩

/-- C8: for every sequence of `N` records with strictly increasing timestamps,
inserting them in that order into the empty tree gives a tree of height
exactly `N` in which no node has a left child. -/
theorem C8_increasing_gives_chain (records : List temp_humid_data_t)
    (hinc : (records.map (·.timestamp)).Pairwise (· < ·)) :
    height (insert_all .NULL records) = records.length ∧
      no_left_child (insert_all .NULL records) :=
  insert_all_increasing records hinc

/-- Witness for C8: the four test records in increasing timestamp order. -/
theorem C8_increasing_gives_chain_witness :
    ([data3, data1, data2, data4].map (·.timestamp)).Pairwise (· < ·) ∧
    height (insert_all .NULL [data3, data1, data2, data4]) = 4 ∧
    no_left_child (insert_all .NULL [data3, data1, data2, data4]) :=
  ⟨by decide, C8_increasing_gives_chain [data3, data1, data2, data4] (by decide)⟩

/-! ## Memory level: well-formed trees, `delete_tree`, and the read-only functions -/

theorem tree_at_frame (cell cell2 : Nat → Option bst_cell) (t : bst_node_t) (p : Nat)
    (fp : List Nat) (h : Mem.tree_at cell p t fp) (hsame : ∀ a ∈ fp, cell2 a = cell a) :
    Mem.tree_at cell2 p t fp := by
  induction t generalizing p fp with
  | NULL => exact h
  | node d l r ihl ihr =>
    obtain ⟨hp, pl, pr, fl, fr, hc, hl, hr, hfp, hnd⟩ := h
    subst hfp
    refine ⟨hp, pl, pr, fl, fr, ?_, ?_, ?_, rfl, hnd⟩
    · rw [hsame p (by simp), hc]
    · exact ihl pl fl hl (fun a ha => hsame a (by simp [ha]))
    · exact ihr pr fr hr (fun a ha => hsame a (by simp [ha]))

theorem tree_at_root_mem (cell : Nat → Option bst_cell) (d : temp_humid_data_t)
    (l r : bst_node_t) (p : Nat) (fp : List Nat) (h : Mem.tree_at cell p (.node d l r) fp) :
    p ≠ 0 ∧ p ∈ fp := by
  obtain ⟨hp, pl, pr, fl, fr, _, _, _, hfp, _⟩ := h
  subst hfp
  exact ⟨hp, by simp⟩

theorem delete_tree_frees (t : bst_node_t) (m : Memory) (p : Nat) (fp : List Nat)
    (fuel : Nat) (h : Mem.tree_at m.cell p t fp) (hfuel : height t < fuel) :
    Mem.delete_tree fuel m p =
      .ok ⟨fun a => if a ∈ fp then none else m.cell a, m.freed ++ fp⟩ := by
  induction t generalizing m p fp fuel with
  | NULL =>
    obtain ⟨hp, hfp⟩ := h
    subst hp hfp
    obtain ⟨f, rfl⟩ : ∃ f, fuel = f + 1 := ⟨fuel - 1, by omega⟩
    simp [Mem.delete_tree]
  | node d l r ihl ihr =>
    obtain ⟨hp, pl, pr, fl, fr, hc, hl, hr, hfp, hnd⟩ := h
    subst hfp
    obtain ⟨f, rfl⟩ : ∃ f, fuel = f + 1 := ⟨fuel - 1, by omega⟩
    simp only [height] at hfuel
    have hfl : height l < f := by omega
    have hfr : height r < f := by omega
    have hnd1 : (fl ++ fr).Nodup ∧ p ∉ fl ++ fr := by
      rw [List.nodup_append] at hnd
      refine ⟨hnd.1, fun hmem => ?_⟩
      exact hnd.2.2 hmem (List.mem_singleton_self p)
    have hpfl : p ∉ fl := fun hm => hnd1.2 (List.mem_append_left _ hm)
    have hpfr : p ∉ fr := fun hm => hnd1.2 (List.mem_append_right _ hm)
    have hdisj : ∀ a ∈ fr, a ∉ fl := by
      intro a har hal
      exact (List.nodup_append.mp hnd1.1).2.2 hal har
    have h1 := ihl m pl fl f hl hfl
    have hr1 : Mem.tree_at (fun a => if a ∈ fl then none else m.cell a) pr r fr :=
      tree_at_frame m.cell _ r pr fr hr (fun a ha => by simp [hdisj a ha])
    have h2 := ihr ⟨fun a => if a ∈ fl then none else m.cell a, m.freed ++ fl⟩ pr fr f hr1 hfr
    unfold Mem.delete_tree
    rw [if_neg hp, hc]
    simp only [h1, if_neg hpfl, hc, h2, Mem.free, if_neg hp, if_neg hpfr]
    congr 1
    congr 1
    · funext a
      by_cases hap : a = p
      · simp [hap]
      · by_cases hal : a ∈ fl <;> by_cases har : a ∈ fr <;> simp [hap, hal, har]
    · simp [List.append_assoc]

theorem mem_search_node_refines (t : bst_node_t) (m : Memory) (p : Nat) (fp : List Nat)
    (fuel : Nat) (k : Int) (h : Mem.tree_at m.cell p t fp) (hfuel : height t < fuel) :
    ∃ q fq, Mem.search_node fuel m p k = .ok q ∧ Mem.tree_at m.cell q (search_node t k) fq := by
  induction t generalizing p fp fuel with
  | NULL =>
    obtain ⟨hp, hfp⟩ := h
    subst hp hfp
    obtain ⟨f, rfl⟩ : ∃ f, fuel = f + 1 := ⟨fuel - 1, by omega⟩
    exact ⟨0, [], by simp [Mem.search_node], rfl, rfl⟩
  | node d l r ihl ihr =>
    have h0 := h
    obtain ⟨hp, pl, pr, fl, fr, hc, hl, hr, hfp, hnd⟩ := h
    obtain ⟨f, rfl⟩ : ∃ f, fuel = f + 1 := ⟨fuel - 1, by omega⟩
    simp only [height] at hfuel
    unfold Mem.search_node search_node
    rw [if_neg hp, hc]
    simp only
    split_ifs with h1 h2
    · exact ⟨p, fp, rfl, h0⟩
    · exact ihl pl fl f hl (by omega)
    · exact ihr pr fr f hr (by omega)

theorem mem_inorder_traversal_refines (t : bst_node_t) (m : Memory) (p : Nat) (fp : List Nat)
    (fuel : Nat) (h : Mem.tree_at m.cell p t fp) (hfuel : height t < fuel) :
    Mem.inorder_traversal fuel m p = .ok (inorder_traversal t) := by
  induction t generalizing p fp fuel with
  | NULL =>
    obtain ⟨hp, hfp⟩ := h
    subst hp hfp
    obtain ⟨f, rfl⟩ : ∃ f, fuel = f + 1 := ⟨fuel - 1, by omega⟩
    simp [Mem.inorder_traversal, inorder_traversal]
  | node d l r ihl ihr =>
    obtain ⟨hp, pl, pr, fl, fr, hc, hl, hr, hfp, hnd⟩ := h
    obtain ⟨f, rfl⟩ : ∃ f, fuel = f + 1 := ⟨fuel - 1, by omega⟩
    simp only [height] at hfuel
    unfold Mem.inorder_traversal
    rw [if_neg hp, hc]
    simp only [ihl pl fl f hl (by omega), ihr pr fr f hr (by omega), inorder_traversal]

/-! ## Memory level: `insert_node` in place refines `insert_node` on trees -/

theorem tree_at_nodup (cell : Nat → Option bst_cell) (t : bst_node_t) (p : Nat)
    (fp : List Nat) (h : Mem.tree_at cell p t fp) : fp.Nodup := by
  cases t with
  | NULL => simp [h.2]
  | node d l r =>
    obtain ⟨_, _, _, _, _, _, _, _, _, hnd⟩ := h
    exact hnd

theorem tree_at_allocated (cell : Nat → Option bst_cell) (t : bst_node_t) (p : Nat)
    (fp : List Nat) (h : Mem.tree_at cell p t fp) : ∀ a ∈ fp, cell a ≠ none := by
  induction t generalizing p fp with
  | NULL => simp [h.2]
  | node d l r ihl ihr =>
    obtain ⟨_, pl, pr, fl, fr, hc, hl, hr, hfp, _⟩ := h
    subst hfp
    intro a ha
    simp only [List.mem_append, List.mem_singleton] at ha
    rcases ha with (ha | ha) | rfl
    · exact ihl pl fl hl a ha
    · exact ihr pr fr hr a ha
    · simp [hc]

theorem mem_insert_node_refines (t : bst_node_t) (m : Memory) (p : Nat) (fp : List Nat)
    (fuel new_node : Nat) (data : temp_humid_data_t) (h : Mem.tree_at m.cell p t fp)
    (hfuel : height t < fuel) (hnew : new_node ≠ 0) (hfresh : m.cell new_node = none) :
    ∃ m1 p1 fp1, Mem.insert_node fuel new_node m p data = .ok (m1, p1) ∧
      Mem.tree_at m1.cell p1 (insert_node t data) fp1 ∧
      (p ≠ 0 → p1 = p) ∧ (∀ a ∈ fp1, a ∈ fp ∨ a = new_node) ∧
      (∀ a, a ∉ fp → a ≠ new_node → m1.cell a = m.cell a) ∧ m1.freed = m.freed := by
  induction t generalizing p fp fuel with
  | NULL =>
    obtain ⟨hp, hfp⟩ := h
    subst hp hfp
    obtain ⟨f, rfl⟩ : ∃ f, fuel = f + 1 := ⟨fuel - 1, by omega⟩
    refine ⟨⟨fun a => if a = new_node then some ⟨data, 0, 0⟩ else m.cell a, m.freed⟩,
      new_node, [new_node], by simp [Mem.insert_node, Mem.create_node, hnew], ?_,
      fun h0 => absurd rfl h0, by simp, ?_, rfl⟩
    · exact ⟨hnew, 0, 0, [], [], by simp, ⟨rfl, rfl⟩, ⟨rfl, rfl⟩, rfl, by simp⟩
    · intro a _ ha
      simp [ha]
  | node d l r ihl ihr =>
    have hnd := tree_at_nodup _ _ _ _ h
    have halloc := tree_at_allocated _ _ _ _ h
    obtain ⟨hp, pl, pr, fl, fr, hc, hl, hr, hfp, _⟩ := h
    subst hfp
    obtain ⟨f, rfl⟩ : ∃ f, fuel = f + 1 := ⟨fuel - 1, by omega⟩
    simp only [height] at hfuel
    have hnd1 : (fl ++ fr).Nodup ∧ p ∉ fl ++ fr := by
      rw [List.nodup_append] at hnd
      exact ⟨hnd.1, fun hmem => hnd.2.2 hmem (List.mem_singleton_self p)⟩
    have hpfl : p ∉ fl := fun hm => hnd1.2 (List.mem_append_left _ hm)
    have hpfr : p ∉ fr := fun hm => hnd1.2 (List.mem_append_right _ hm)
    have hdisj : ∀ a ∈ fl, a ∉ fr := fun a hal har =>
      (List.nodup_append.mp hnd1.1).2.2 hal har
    have hpnew : p ≠ new_node := by
      rintro rfl
      rw [hfresh] at hc
      exact Option.noConfusion hc
    have hnewfp : new_node ∉ fl ++ fr ++ [p] := fun hm => halloc _ hm hfresh
    have hnewfl : new_node ∉ fl := fun hm => hnewfp (by simp [hm])
    have hnewfr : new_node ∉ fr := fun hm => hnewfp (by simp [hm])
    unfold Mem.insert_node insert_node
    rw [if_neg hp, hc]
    simp only
    split_ifs with hlt hgt
    · obtain ⟨m1, q, fl1, hrun, htree, _, hsub, hframe, hfreed⟩ :=
        ihl pl fl f hl (by omega)
      have hm1p : m1.cell p = some ⟨d, pl, pr⟩ := by
        rw [hframe p hpfl hpnew, hc]
      have hpfl1 : p ∉ fl1 := fun hm => by
        rcases hsub p hm with h1 | h1
        · exact hpfl h1
        · exact hpnew h1
      have hdisj1 : ∀ a ∈ fl1, a ∉ fr := fun a ha har => by
        rcases hsub a ha with h1 | h1
        · exact hdisj a h1 har
        · exact hnewfr (h1 ▸ har)
      simp only [hrun, hm1p]
      refine ⟨_, p, fl1 ++ fr ++ [p], rfl, ?_, fun _ => rfl, ?_, ?_, hfreed⟩
      · refine ⟨hp, q, pr, fl1, fr, by simp, ?_, ?_, rfl, ?_⟩
        · refine tree_at_frame m1.cell _ _ q fl1 htree (fun a ha => ?_)
          have : a ≠ p := fun h1 => hpfl1 (h1 ▸ ha)
          simp [this]
        · refine tree_at_frame m.cell _ _ pr fr hr (fun a ha => ?_)
          have hap : a ≠ p := fun h1 => hpfr (h1 ▸ ha)
          have hafl : a ∉ fl := fun h1 => hdisj a h1 ha
          have hanew : a ≠ new_node := fun h1 => hnewfr (h1 ▸ ha)
          simp [hap, hframe a hafl hanew]
        · rw [List.nodup_append]
          refine ⟨?_, List.nodup_singleton p, ?_⟩
          · rw [List.nodup_append]
            exact ⟨tree_at_nodup _ _ _ _ htree, (List.nodup_append.mp hnd1.1).2.1,
              fun a ha har => hdisj1 a ha har⟩
          · intro a ha hap
            rw [List.mem_singleton] at hap
            subst hap
            rcases List.mem_append.mp ha with h1 | h1
            · exact hpfl1 h1
            · exact hpfr h1
      · intro a ha
        simp only [List.mem_append, List.mem_singleton] at ha ⊢
        rcases ha with (ha | ha) | ha
        · rcases hsub a ha with h1 | h1
          · exact Or.inl (Or.inl (Or.inl h1))
          · exact Or.inr h1
        · exact Or.inl (Or.inl (Or.inr ha))
        · exact Or.inl (Or.inr ha)
      · intro a ha hanew
        simp only [List.mem_append, List.mem_singleton, not_or] at ha
        simp [ha.2, hframe a ha.1.1 hanew]
    · obtain ⟨m1, q, fr1, hrun, htree, _, hsub, hframe, hfreed⟩ :=
        ihr pr fr f hr (by omega)
      have hm1p : m1.cell p = some ⟨d, pl, pr⟩ := by
        rw [hframe p hpfr hpnew, hc]
      have hpfr1 : p ∉ fr1 := fun hm => by
        rcases hsub p hm with h1 | h1
        · exact hpfr h1
        · exact hpnew h1
      have hdisj1 : ∀ a ∈ fl, a ∉ fr1 := fun a ha har => by
        rcases hsub a har with h1 | h1
        · exact hdisj a ha h1
        · exact hnewfl (h1 ▸ ha)
      simp only [hrun, hm1p]
      refine ⟨_, p, fl ++ fr1 ++ [p], rfl, ?_, fun _ => rfl, ?_, ?_, hfreed⟩
      · refine ⟨hp, pl, q, fl, fr1, by simp, ?_, ?_, rfl, ?_⟩
        · refine tree_at_frame m.cell _ _ pl fl hl (fun a ha => ?_)
          have hap : a ≠ p := fun h1 => hpfl (h1 ▸ ha)
          have hafr : a ∉ fr := fun h1 => hdisj a ha h1
          have hanew : a ≠ new_node := fun h1 => hnewfl (h1 ▸ ha)
          simp [hap, hframe a hafr hanew]
        · refine tree_at_frame m1.cell _ _ q fr1 htree (fun a ha => ?_)
          have : a ≠ p := fun h1 => hpfr1 (h1 ▸ ha)
          simp [this]
        · rw [List.nodup_append]
          refine ⟨?_, List.nodup_singleton p, ?_⟩
          · rw [List.nodup_append]
            exact ⟨(List.nodup_append.mp hnd1.1).1, tree_at_nodup _ _ _ _ htree,
              fun a ha har => hdisj1 a ha har⟩
          · intro a ha hap
            rw [List.mem_singleton] at hap
            subst hap
            rcases List.mem_append.mp ha with h1 | h1
            · exact hpfl h1
            · exact hpfr1 h1
      · intro a ha
        simp only [List.mem_append, List.mem_singleton] at ha ⊢
        rcases ha with (ha | ha) | ha
        · exact Or.inl (Or.inl (Or.inl ha))
        · rcases hsub a ha with h1 | h1
          · exact Or.inl (Or.inl (Or.inr h1))
          · exact Or.inr h1
        · exact Or.inl (Or.inr ha)
      · intro a ha hanew
        simp only [List.mem_append, List.mem_singleton, not_or] at ha
        simp [ha.2, hframe a ha.1.2 hanew]
    · exact ⟨m, p, fl ++ fr ++ [p], rfl, ⟨hp, pl, pr, fl, fr, hc, hl, hr, rfl, hnd⟩,
        fun _ => rfl, fun a ha => Or.inl ha, fun _ _ _ => rfl, rfl⟩

theorem height_insert_node_le (t : bst_node_t) (data : temp_humid_data_t) :
    height (insert_node t data) ≤ height t + 1 := by
  induction t with
  | NULL => simp [insert_node, create_node, height]
  | node d l r ihl ihr =>
    unfold insert_node
    split_ifs <;> simp only [height] <;> omega

theorem mem_insert_all_refines (records : List temp_humid_data_t) (t : bst_node_t)
    (m : Memory) (p : Nat) (fp : List Nat) (fuel n : Nat) (h : Mem.tree_at m.cell p t fp)
    (hfuel : height t + records.length < fuel) (hn : 0 < n)
    (hfree : ∀ a, n ≤ a → m.cell a = none) :
    ∃ m1 p1 fp1,
      Mem.insert_all fuel m p ((List.range' n records.length).zip records) = .ok (m1, p1) ∧
        Mem.tree_at m1.cell p1 (insert_all t records) fp1 ∧ m1.freed = m.freed := by
  induction records generalizing t m p fp n with
  | nil => exact ⟨m, p, fp, rfl, h, rfl⟩
  | cons r rs ih =>
    simp only [List.length_cons] at hfuel
    obtain ⟨m1, p1, fp1, hrun, htree, _, hsub, hframe, hfreed⟩ :=
      mem_insert_node_refines t m p fp fuel n r h (by omega) (by omega) (hfree n le_rfl)
    have hfree1 : ∀ a, n + 1 ≤ a → m1.cell a = none := by
      intro a ha
      have hafp : a ∉ fp := fun hm =>
        tree_at_allocated _ _ _ _ h a hm (hfree a (by omega))
      rw [hframe a hafp (by omega)]
      exact hfree a (by omega)
    have hh := height_insert_node_le t r
    obtain ⟨m2, p2, fp2, hrun2, htree2, hfreed2⟩ :=
      ih (insert_node t r) m1 p1 fp1 (n + 1) htree (by omega) (by omega) hfree1
    refine ⟨m2, p2, fp2, ?_, htree2, hfreed2.trans hfreed⟩
    simp only [List.length_cons, List.range'_succ, List.zip_cons_cons, Mem.insert_all, hrun]
    exact hrun2

theorem stale_pointer_faults (m : Memory) (p : Nat) (hp : p ≠ 0) (hc : m.cell p = none)
    (fuel : Nat) :
    (∀ k, Mem.search_node (fuel + 1) m p k = .fault) ∧
      Mem.inorder_traversal (fuel + 1) m p = .fault ∧
      Mem.delete_tree (fuel + 1) m p = .fault := by
  refine ⟨fun k => ?_, ?_, ?_⟩
  · simp [Mem.search_node, hp, hc]
  · simp [Mem.inorder_traversal, hp, hc]
  · simp [Mem.delete_tree, hp, hc]

theorem one_node_tree_at : Mem.tree_at Mem.one_node.cell 1 (insert_node .NULL data1) [1] :=
  ⟨by decide, 0, 0, [], [], rfl, ⟨rfl, rfl⟩, ⟨rfl, rfl⟩, rfl, by decide⟩

theorem mem_build_refines (records : List temp_humid_data_t) :
    ∃ m1 p1 fp1,
      Mem.insert_all (records.length + 1) Mem.empty 0
          ((List.range' 1 records.length).zip records) = .ok (m1, p1) ∧
        Mem.tree_at m1.cell p1 (insert_all .NULL records) fp1 ∧ m1.freed = [] :=
  mem_insert_all_refines records .NULL Mem.empty 0 [] (records.length + 1) 1 ⟨rfl, rfl⟩
    (by simp [height]) (by decide) (fun _ _ => rfl)

theorem one_node_built : Mem.insert_node 1 1 Mem.empty 0 data1 = .ok (Mem.one_node, 1) :=
  rfl

theorem one_node_delete : Mem.delete_tree 2 Mem.one_node 1 = .ok Mem.one_node_freed := by
  rw [delete_tree_frees _ _ 1 [1] 2 one_node_tree_at (by decide)]
  unfold Mem.one_node_freed Mem.one_node
  congr 2
  funext a
  by_cases ha : a = 1 <;> simp [ha]

/-- C9, as stated, fails: after `root = insert_node(NULL, data1)` and
`delete_tree(root)` the handle `root` still holds the address of the freed
node, so `search_node` for the timestamp that was present and
`inorder_traversal` read a freed node; with no amount of fuel do they return
absent or an empty sequence. -/
theorem C9_counterexample :
    Mem.insert_node 1 1 Mem.empty 0 data1 = .ok (Mem.one_node, 1) ∧
    Mem.tree_at Mem.one_node.cell 1 (insert_node .NULL data1) [1] ∧
    Mem.delete_tree 2 Mem.one_node 1 = .ok Mem.one_node_freed ∧
    Mem.search_node 1 Mem.one_node_freed 1 1001 = .fault ∧
    Mem.inorder_traversal 1 Mem.one_node_freed 1 = .fault ∧
    (∀ fuel, Mem.search_node fuel Mem.one_node_freed 1 1001 ≠ .ok 0) ∧
    (∀ fuel, Mem.inorder_traversal fuel Mem.one_node_freed 1 ≠ .ok []) := by
  refine ⟨one_node_built, one_node_tree_at, one_node_delete, rfl, rfl, ?_, ?_⟩
  · intro fuel
    cases fuel with
    | zero => simp [Mem.search_node]
    | succ f => simp [Mem.search_node, Mem.one_node_freed]
  · intro fuel
    cases fuel with
    | zero => simp [Mem.inorder_traversal]
    | succ f => simp [Mem.inorder_traversal, Mem.one_node_freed]

/-- C9, amended: for every well-formed tree in memory, `delete_tree` returns
and leaves a memory in which every node of the tree is released and every
other cell is as before; in that memory the `NULL` handle has an empty
traversal and `search_node` returns absent for every timestamp.  The handle
passed in is not reset: for the empty tree it is `NULL`, for a non-empty tree
it keeps the address of the freed root, and traversal and search through it
read a freed node. -/
theorem C9_delete_tree_releases_every_node (t : bst_node_t) (m : Memory) (p : Nat)
    (fp : List Nat) (h : Mem.tree_at m.cell p t fp) :
    ∃ m1, (∀ fuel, height t < fuel → Mem.delete_tree fuel m p = .ok m1) ∧
      (∀ a ∈ fp, m1.cell a = none) ∧ (∀ a, a ∉ fp → m1.cell a = m.cell a) ∧
      (∀ fuel, Mem.inorder_traversal (fuel + 1) m1 0 = .ok [] ∧
        ∀ k, Mem.search_node (fuel + 1) m1 0 k = .ok 0) ∧
      (t = .NULL → p = 0) ∧
      (t ≠ .NULL → p ≠ 0 ∧ ∀ fuel, Mem.inorder_traversal (fuel + 1) m1 p = .fault ∧
        ∀ k, Mem.search_node (fuel + 1) m1 p k = .fault) := by
  refine ⟨⟨fun a => if a ∈ fp then none else m.cell a, m.freed ++ fp⟩,
    fun fuel hf => delete_tree_frees t m p fp fuel h hf, ?_, ?_, ?_, ?_, ?_⟩
  · intro a ha
    simp [ha]
  · intro a ha
    simp [ha]
  · intro fuel
    exact ⟨by simp [Mem.inorder_traversal], fun k => by simp [Mem.search_node]⟩
  · rintro rfl
    exact h.1
  · intro hne
    cases t with
    | NULL => exact absurd rfl hne
    | node d l r =>
      obtain ⟨hp, hmem⟩ := tree_at_root_mem m.cell d l r p fp h
      refine ⟨hp, fun fuel => ?_⟩
      have hs := stale_pointer_faults
        ⟨fun a => if a ∈ fp then none else m.cell a, m.freed ++ fp⟩ p hp (by simp [hmem]) fuel
      exact ⟨hs.2.1, hs.1⟩

/-- Witness for C9 (amended) on the one-node tree. -/
theorem C9_delete_tree_releases_every_node_witness :
    Mem.tree_at Mem.one_node.cell 1 (insert_node .NULL data1) [1] ∧
    ∃ m1, (∀ fuel, height (insert_node .NULL data1) < fuel →
        Mem.delete_tree fuel Mem.one_node 1 = .ok m1) ∧
      (∀ a ∈ [1], m1.cell a = none) ∧ (∀ a, a ∉ [1] → m1.cell a = Mem.one_node.cell a) ∧
      (∀ fuel, Mem.inorder_traversal (fuel + 1) m1 0 = .ok [] ∧
        ∀ k, Mem.search_node (fuel + 1) m1 0 k = .ok 0) ∧
      (insert_node .NULL data1 = .NULL → 1 = 0) ∧
      (insert_node .NULL data1 ≠ .NULL → 1 ≠ 0 ∧
        ∀ fuel, Mem.inorder_traversal (fuel + 1) m1 1 = .fault ∧
          ∀ k, Mem.search_node (fuel + 1) m1 1 k = .fault) :=
  ⟨one_node_tree_at,
    C9_delete_tree_releases_every_node (insert_node .NULL data1) Mem.one_node 1 [1]
      one_node_tree_at⟩

/-- C10, as stated, fails: after `root = insert_node(NULL, data1)` a second
`delete_tree(root)` reads the node freed by the first call; with no amount of
fuel does it return a memory, let alone the memory left by the first call. -/
theorem C10_counterexample :
    Mem.insert_node 1 1 Mem.empty 0 data1 = .ok (Mem.one_node, 1) ∧
    Mem.tree_at Mem.one_node.cell 1 (insert_node .NULL data1) [1] ∧
    Mem.delete_tree 2 Mem.one_node 1 = .ok Mem.one_node_freed ∧
    Mem.delete_tree 2 Mem.one_node_freed 1 = .fault ∧
    ∀ fuel m2, Mem.delete_tree fuel Mem.one_node_freed 1 ≠ .ok m2 := by
  refine ⟨one_node_built, one_node_tree_at, one_node_delete, rfl, ?_⟩
  intro fuel m2
  cases fuel with
  | zero => simp [Mem.delete_tree]
  | succ f => simp [Mem.delete_tree, Mem.one_node_freed]

/-- C10, amended: `delete_tree` on `NULL` is a no-op that returns the memory
unchanged, so calling it twice on the empty tree is the same as calling it
once; on a non-empty well-formed tree the first call returns, and a second
call on the same handle reads the freed root and faults. -/
theorem C10_delete_tree_twice (m : Memory) :
    (∀ fuel, Mem.delete_tree (fuel + 1) m 0 = .ok m) ∧
    (∀ t p fp, Mem.tree_at m.cell p t fp → t = .NULL →
      ∀ fuel1 fuel2, ∃ m1, Mem.delete_tree (fuel1 + 1) m p = .ok m1 ∧
        Mem.delete_tree (fuel2 + 1) m1 p = .ok m1 ∧ m1 = m) ∧
    (∀ t p fp, Mem.tree_at m.cell p t fp → t ≠ .NULL →
      ∃ m1, (∀ fuel, height t < fuel → Mem.delete_tree fuel m p = .ok m1) ∧
        ∀ fuel, Mem.delete_tree (fuel + 1) m1 p = .fault) := by
  have hnull : ∀ (m0 : Memory) (fuel : Nat), Mem.delete_tree (fuel + 1) m0 0 = .ok m0 := by
    intro m0 fuel
    simp [Mem.delete_tree]
  refine ⟨hnull m, ?_, ?_⟩
  · rintro t p fp h rfl fuel1 fuel2
    obtain ⟨hp, _⟩ := h
    subst hp
    exact ⟨m, hnull m fuel1, hnull m fuel2, rfl⟩
  · intro t p fp h hne
    cases t with
    | NULL => exact absurd rfl hne
    | node d l r =>
      obtain ⟨hp, hmem⟩ := tree_at_root_mem m.cell d l r p fp h
      refine ⟨⟨fun a => if a ∈ fp then none else m.cell a, m.freed ++ fp⟩,
        fun fuel hf => delete_tree_frees _ m p fp fuel h hf, fun fuel => ?_⟩
      exact (stale_pointer_faults
        ⟨fun a => if a ∈ fp then none else m.cell a, m.freed ++ fp⟩ p hp
          (by simp [hmem]) fuel).2.2

/-- Witness for C10 (amended) on the one-node tree. -/
theorem C10_delete_tree_twice_witness :
    Mem.tree_at Mem.one_node.cell 1 (insert_node .NULL data1) [1] ∧
    insert_node .NULL data1 ≠ .NULL ∧
    ∃ m1, (∀ fuel, height (insert_node .NULL data1) < fuel →
        Mem.delete_tree fuel Mem.one_node 1 = .ok m1) ∧
      ∀ fuel, Mem.delete_tree (fuel + 1) m1 1 = .fault :=
  ⟨one_node_tree_at, by decide,
    (C10_delete_tree_twice Mem.one_node).2.2 (insert_node .NULL data1) 1 [1]
      one_node_tree_at (by decide)⟩

/-! ## Node count and root of `insert_node` (C11, C12) -/

theorem node_count_insert_node (t : bst_node_t) (r : temp_humid_data_t) :
    (search_node t r.timestamp = .NULL → node_count (insert_node t r) = node_count t + 1) ∧
    (search_node t r.timestamp ≠ .NULL → node_count (insert_node t r) = node_count t) := by
  induction t with
  | NULL => simp [search_node, insert_node, create_node, node_count]
  | node d l rt ihl ihr =>
    unfold insert_node search_node
    by_cases hlt : r.timestamp < d.timestamp
    · rw [if_pos hlt, if_neg (ne_of_gt hlt), if_pos hlt]
      simp only [node_count]
      exact ⟨fun h => by rw [ihl.1 h]; omega, fun h => by rw [ihl.2 h]⟩
    · by_cases hgt : r.timestamp > d.timestamp
      · rw [if_neg hlt, if_pos hgt, if_neg (ne_of_lt hgt), if_neg hlt]
        simp only [node_count]
        exact ⟨fun h => by rw [ihr.1 h]; omega, fun h => by rw [ihr.2 h]⟩
      · have heq : d.timestamp = r.timestamp :=
          le_antisymm (not_lt.mp hlt) (not_lt.mp hgt)
        simp [hlt, hgt, heq]

/-- C11: for every tree, ordered or not, and every record `r`, the node count
of `insert_node(tree, r)` is the node count of the tree or that count plus
one, and it is the count plus one exactly when `search_node(tree,
r.timestamp)` returns absent. -/
theorem C11_insert_allocates_at_most_one (t : bst_node_t) (r : temp_humid_data_t) :
    (node_count (insert_node t r) = node_count t ∨
      node_count (insert_node t r) = node_count t + 1) ∧
    (node_count (insert_node t r) = node_count t + 1 ↔
      search_node t r.timestamp = .NULL) := by
  obtain ⟨h1, h2⟩ := node_count_insert_node t r
  by_cases hs : search_node t r.timestamp = .NULL
  · exact ⟨Or.inr (h1 hs), fun _ => hs, fun _ => h1 hs⟩
  · refine ⟨Or.inl (h2 hs), fun h => ?_, fun h => absurd h hs⟩
    rw [h2 hs] at h
    omega

theorem insert_node_keeps_root (d : temp_humid_data_t) (l rt : bst_node_t)
    (r : temp_humid_data_t) :
    ∃ l1 rt1, insert_node (.node d l rt) r = .node d l1 rt1 := by
  unfold insert_node
  split_ifs
  · exact ⟨_, _, rfl⟩
  · exact ⟨_, _, rfl⟩
  · exact ⟨_, _, rfl⟩

/-- C12: for every non-empty tree and every record `r`, `insert_node` returns
a tree whose root holds the record the input root held, and on a well-formed
tree in memory the pointer returned is the root pointer passed in; the
pointer returned is the newly allocated node exactly when the input tree is
empty. -/
theorem C12_insert_keeps_root (t : bst_node_t) (r : temp_humid_data_t) :
    (t ≠ .NULL → node_data (insert_node t r) = node_data t) ∧
    (t = .NULL → insert_node t r = create_node r) ∧
    (∀ (m : Memory) (p : Nat) (fp : List Nat) (fuel new_node : Nat),
      Mem.tree_at m.cell p t fp → height t < fuel → new_node ≠ 0 → m.cell new_node = none →
      ∃ m1 p1, Mem.insert_node fuel new_node m p r = .ok (m1, p1) ∧
        (t ≠ .NULL → p1 = p ∧
          (m1.cell p1).map (·.data) = node_data t ∧ (m.cell p).map (·.data) = node_data t) ∧
        (p1 = new_node ↔ t = .NULL)) := by
  refine ⟨?_, ?_, ?_⟩
  · intro hne
    cases t with
    | NULL => exact absurd rfl hne
    | node d l rt =>
      obtain ⟨l1, rt1, h1⟩ := insert_node_keeps_root d l rt r
      rw [h1]
      rfl
  · rintro rfl
    rfl
  · intro m p fp fuel new_node h hfuel hnew hfresh
    obtain ⟨m1, p1, fp1, hrun, htree, hroot, _, _, _⟩ :=
      mem_insert_node_refines t m p fp fuel new_node r h hfuel hnew hfresh
    refine ⟨m1, p1, hrun, ?_, ?_⟩
    · intro hne
      cases t with
      | NULL => exact absurd rfl hne
      | node d l rt =>
        obtain ⟨l1, rt1, h1⟩ := insert_node_keeps_root d l rt r
        rw [h1] at htree
        obtain ⟨_, _, _, _, _, hc1, _⟩ := htree
        obtain ⟨hp, _, _, _, _, hc, _⟩ := h
        exact ⟨hroot hp, by simp [hc1, node_data], by simp [hc, node_data]⟩
    · cases t with
      | NULL =>
        obtain ⟨hp, _⟩ := h
        subst hp
        obtain ⟨f, rfl⟩ : ∃ f, fuel = f + 1 := ⟨fuel - 1, by omega⟩
        simp only [Mem.insert_node, Mem.create_node, if_neg hnew, if_true] at hrun
        injection hrun with hrun
        injection hrun with _ hp1
        exact ⟨fun _ => rfl, fun _ => hp1.symm⟩
      | node d l rt =>
        obtain ⟨hp, _, _, _, _, hc, _⟩ := h
        refine ⟨fun h1 => ?_, fun h1 => absurd h1 (by simp)⟩
        have h2 : p = new_node := (hroot hp).symm.trans h1
        rw [← h2, hc] at hfresh
        exact Option.noConfusion hfresh

/-- Witness for C12: inserting `data2` into the one-node tree holding `data1`,
with `malloc` handing out address `2`. -/
theorem C12_insert_keeps_root_witness :
    insert_node .NULL data1 ≠ .NULL ∧
    Mem.tree_at Mem.one_node.cell 1 (insert_node .NULL data1) [1] ∧
    node_data (insert_node (insert_node .NULL data1) data2) =
      node_data (insert_node .NULL data1) ∧
    ∃ m1 p1, Mem.insert_node 2 2 Mem.one_node 1 data2 = .ok (m1, p1) ∧
      (insert_node .NULL data1 ≠ .NULL → p1 = 1 ∧
        (m1.cell p1).map (·.data) = node_data (insert_node .NULL data1) ∧
        (Mem.one_node.cell 1).map (·.data) = node_data (insert_node .NULL data1)) ∧
      (p1 = 2 ↔ insert_node .NULL data1 = .NULL) :=
  ⟨by decide, one_node_tree_at,
    (C12_insert_keeps_root (insert_node .NULL data1) data2).1 (by decide),
    (C12_insert_keeps_root (insert_node .NULL data1) data2).2.2 Mem.one_node 1 [1] 2 2
      one_node_tree_at (by decide) (by decide) rfl⟩

/-! ## Order of the `free` calls of `delete_tree` (C13) -/

theorem mem_postorder_refines (t : bst_node_t) (m : Memory) (p : Nat) (fp : List Nat)
    (fuel : Nat) (h : Mem.tree_at m.cell p t fp) (hfuel : height t < fuel) :
    Mem.postorder fuel m p = .ok fp := by
  induction t generalizing p fp fuel with
  | NULL =>
    obtain ⟨hp, hfp⟩ := h
    subst hp hfp
    obtain ⟨f, rfl⟩ : ∃ f, fuel = f + 1 := ⟨fuel - 1, by omega⟩
    simp [Mem.postorder]
  | node d l r ihl ihr =>
    obtain ⟨hp, pl, pr, fl, fr, hc, hl, hr, hfp, _⟩ := h
    obtain ⟨f, rfl⟩ : ∃ f, fuel = f + 1 := ⟨fuel - 1, by omega⟩
    simp only [height] at hfuel
    unfold Mem.postorder
    rw [if_neg hp, hc]
    simp only [ihl pl fl f hl (by omega), ihr pr fr f hr (by omega), hfp]

theorem tree_at_length (cell : Nat → Option bst_cell) (t : bst_node_t) (p : Nat)
    (fp : List Nat) (h : Mem.tree_at cell p t fp) : fp.length = node_count t := by
  induction t generalizing p fp with
  | NULL => simp [h.2, node_count]
  | node d l r ihl ihr =>
    obtain ⟨_, pl, pr, fl, fr, _, hl, hr, hfp, _⟩ := h
    subst hfp
    simp only [List.length_append, List.length_singleton, node_count, ihl pl fl hl,
      ihr pr fr hr]
    omega

theorem tree_at_child_mem (cell : Nat → Option bst_cell) (t : bst_node_t) (p : Nat)
    (fp : List Nat) (h : Mem.tree_at cell p t fp) (hp : p ≠ 0) : p ∈ fp := by
  cases t with
  | NULL => exact absurd h.1 hp
  | node d l r => exact (tree_at_root_mem cell d l r p fp h).2

theorem tree_at_children_first (cell : Nat → Option bst_cell) (t : bst_node_t) (p : Nat)
    (fp : List Nat) (h : Mem.tree_at cell p t fp) (q : Nat) (c : bst_cell) (hq : q ∈ fp)
    (hc : cell q = some c) :
    ∃ pre post, fp = pre ++ q :: post ∧ (c.left ≠ 0 → c.left ∈ pre) ∧
      (c.right ≠ 0 → c.right ∈ pre) := by
  induction t generalizing p fp with
  | NULL =>
    rw [h.2] at hq
    simp at hq
  | node d l r ihl ihr =>
    obtain ⟨_, pl, pr, fl, fr, hcp, hl, hr, hfp, _⟩ := h
    subst hfp
    simp only [List.mem_append, List.mem_singleton] at hq
    rcases hq with (hq | hq) | rfl
    · obtain ⟨pre, post, hsplit, h1, h2⟩ := ihl pl fl hl hq
      exact ⟨pre, post ++ fr ++ [p], by simp [hsplit], h1, h2⟩
    · obtain ⟨pre, post, hsplit, h1, h2⟩ := ihr pr fr hr hq
      exact ⟨fl ++ pre, post ++ [p], by simp [hsplit],
        fun h0 => List.mem_append_right _ (h1 h0), fun h0 => List.mem_append_right _ (h2 h0)⟩
    · rw [hcp] at hc
      injection hc with hc
      subst hc
      exact ⟨fl ++ fr, [], by simp,
        fun h0 => List.mem_append_left _ (tree_at_child_mem cell l pl fl hl h0),
        fun h0 => List.mem_append_right _ (tree_at_child_mem cell r pr fr hr h0)⟩

theorem test_tree_built :
    insert_all .NULL [data1, data2, data3, data4] =
      .node data1 (.node data3 .NULL .NULL) (.node data2 .NULL (.node data4 .NULL .NULL)) := by
  decide

theorem test_tree_at :
    Mem.tree_at Mem.test_tree.cell 1 (insert_all .NULL [data1, data2, data3, data4])
      [3, 4, 2, 1] := by
  rw [test_tree_built]
  refine ⟨by decide, 3, 2, [3], [4, 2], rfl, ?_, ?_, rfl, by decide⟩
  · exact ⟨by decide, 0, 0, [], [], rfl, ⟨rfl, rfl⟩, ⟨rfl, rfl⟩, rfl, by decide⟩
  · refine ⟨by decide, 0, 4, [], [4], rfl, ⟨rfl, rfl⟩, ?_, rfl, by decide⟩
    exact ⟨by decide, 0, 0, [], [], rfl, ⟨rfl, rfl⟩, ⟨rfl, rfl⟩, rfl, by decide⟩

theorem test_tree_run :
    ∃ m1, Mem.insert_all 4 Mem.empty 0 [(1, data1), (2, data2), (3, data3), (4, data4)] =
        .ok (m1, 1) ∧ m1.freed = [] ∧ ∀ a, m1.cell a = Mem.test_tree.cell a := by
  refine ⟨_, rfl, rfl, ?_⟩
  intro a
  by_cases h1 : a = 1
  · subst h1; rfl
  by_cases h2 : a = 2
  · subst h2; rfl
  by_cases h3 : a = 3
  · subst h3; rfl
  by_cases h4 : a = 4
  · subst h4; rfl
  simp [Mem.test_tree, Mem.empty, h1, h2, h3, h4]

/-- C13: on every well-formed tree in memory `delete_tree` returns, and the
addresses it passes to `free`, in call order, are the post-order of the tree
(left subtree, right subtree, node, recursively): every node of the tree is
freed exactly once, the children of a node are freed before the node, and the
root is freed last. -/
theorem C13_delete_tree_frees_in_postorder (t : bst_node_t) (m : Memory) (p : Nat)
    (fp : List Nat) (h : Mem.tree_at m.cell p t fp) :
    ∃ m1,
      (∀ fuel, height t < fuel →
        Mem.delete_tree fuel m p = .ok m1 ∧ Mem.postorder fuel m p = .ok fp) ∧
      m1.freed = m.freed ++ fp ∧
      fp.Nodup ∧ fp.length = node_count t ∧
      (∀ a ∈ fp, m.cell a ≠ none ∧ m1.cell a = none) ∧
      (∀ q c, q ∈ fp → m.cell q = some c →
        ∃ pre post, fp = pre ++ q :: post ∧ (c.left ≠ 0 → c.left ∈ pre) ∧
          (c.right ≠ 0 → c.right ∈ pre)) ∧
      (t ≠ .NULL → fp.getLast? = some p) := by
  refine ⟨⟨fun a => if a ∈ fp then none else m.cell a, m.freed ++ fp⟩,
    fun fuel hf => ⟨delete_tree_frees t m p fp fuel h hf, mem_postorder_refines t m p fp fuel h hf⟩,
    rfl, tree_at_nodup _ _ _ _ h, tree_at_length _ _ _ _ h, ?_, ?_, ?_⟩
  · intro a ha
    exact ⟨tree_at_allocated _ _ _ _ h a ha, by simp [ha]⟩
  · intro q c hq hc
    exact tree_at_children_first m.cell t p fp h q c hq hc
  · intro hne
    cases t with
    | NULL => exact absurd rfl hne
    | node d l r =>
      obtain ⟨_, pl, pr, fl, fr, _, _, _, hfp, _⟩ := h
      subst hfp
      simp

/-- Witness for C13: the tree of `test_bst_operations` laid out at addresses
`1` to `4`; `delete_tree` frees `3`, `4`, `2`, then the root `1`. -/
theorem C13_delete_tree_frees_in_postorder_witness :
    Mem.tree_at Mem.test_tree.cell 1 (insert_all .NULL [data1, data2, data3, data4])
      [3, 4, 2, 1] ∧
    ∃ m1,
      (∀ fuel, height (insert_all .NULL [data1, data2, data3, data4]) < fuel →
        Mem.delete_tree fuel Mem.test_tree 1 = .ok m1 ∧
          Mem.postorder fuel Mem.test_tree 1 = .ok [3, 4, 2, 1]) ∧
      m1.freed = Mem.test_tree.freed ++ [3, 4, 2, 1] ∧
      [3, 4, 2, 1].Nodup ∧
      [3, 4, 2, 1].length = node_count (insert_all .NULL [data1, data2, data3, data4]) ∧
      (∀ a ∈ [3, 4, 2, 1], Mem.test_tree.cell a ≠ none ∧ m1.cell a = none) ∧
      (∀ q c, q ∈ [3, 4, 2, 1] → Mem.test_tree.cell q = some c →
        ∃ pre post, [3, 4, 2, 1] = pre ++ q :: post ∧ (c.left ≠ 0 → c.left ∈ pre) ∧
          (c.right ≠ 0 → c.right ∈ pre)) ∧
      (insert_all .NULL [data1, data2, data3, data4] ≠ .NULL →
        [3, 4, 2, 1].getLast? = some 1) :=
  ⟨test_tree_at,
    C13_delete_tree_frees_in_postorder (insert_all .NULL [data1, data2, data3, data4])
      Mem.test_tree 1 [3, 4, 2, 1] test_tree_at⟩

/-! ## Search against the traversal and across an insert (C14, C15, C16) -/

theorem search_node_found_iff (t : bst_node_t) (ht : bst_ordered t) (k : Int) :
    search_node t k ≠ .NULL ↔ k ∈ (inorder_traversal t).map (·.timestamp) := by
  constructor
  · intro hne
    cases hs : search_node t k with
    | NULL => exact absurd hs hne
    | node d l r =>
      obtain ⟨hk, hmem⟩ := search_node_sound t k d l r hs
      exact List.mem_map.mpr ⟨d, hmem, hk⟩
  · intro hk
    obtain ⟨x, hx, rfl⟩ := List.mem_map.mp hk
    obtain ⟨l, r, hs⟩ := search_node_complete t ht x hx
    rw [hs]
    exact fun h => bst_node_t.noConfusion h

/-- C14: for every tree satisfying the ordering invariant and every timestamp
`k`, `search_node` returns a node, not `NULL`, if and only if `k` occurs among
the timestamps of the in-order traversal, that is, some node of the tree has
timestamp `k`. -/
theorem C14_search_found_iff_present (t : bst_node_t) (k : Int) (ht : bst_ordered t) :
    (search_node t k ≠ .NULL ↔ k ∈ (inorder_traversal t).map (·.timestamp)) ∧
    (search_node t k ≠ .NULL ↔ ¬ all_nodes (fun x => x.timestamp ≠ k) t) := by
  refine ⟨search_node_found_iff t ht k, ?_⟩
  rw [search_node_found_iff t ht k, all_nodes_iff_inorder, List.mem_map]
  push_neg
  rfl

/-- Witness for C14: timestamp 1002 in the tree of `test_bst_operations`. -/
theorem C14_search_found_iff_present_witness :
    bst_ordered (insert_all .NULL [data1, data2, data3, data4]) ∧
    (search_node (insert_all .NULL [data1, data2, data3, data4]) 1002 ≠ .NULL ↔
      (1002 : Int) ∈
        (inorder_traversal (insert_all .NULL [data1, data2, data3, data4])).map
          (·.timestamp)) :=
  ⟨by decide,
    (C14_search_found_iff_present (insert_all .NULL [data1, data2, data3, data4]) 1002
      (by decide)).1⟩

theorem search_node_insert_other (t : bst_node_t) (r : temp_humid_data_t) (k : Int)
    (hk : k ≠ r.timestamp) :
    node_data (search_node (insert_node t r) k) = node_data (search_node t k) := by
  induction t with
  | NULL =>
    have h : ¬ r.timestamp = k := fun h => hk h.symm
    simp [insert_node, create_node, search_node, node_data, h]
  | node d l rt ihl ihr =>
    unfold insert_node
    split_ifs with hlt hgt
    · unfold search_node
      split_ifs
      · rfl
      · exact ihl
      · rfl
    · unfold search_node
      split_ifs
      · rfl
      · rfl
      · exact ihr
    · rfl

theorem node_data_eq_none (s : bst_node_t) : node_data s = none ↔ s = .NULL := by
  cases s <;> simp [node_data]

/-- C15: for every tree, ordered or not, every record `r` and every timestamp
`k` other than `r.timestamp`, `search_node` on `insert_node(tree, r)` with `k`
is absent exactly when it is absent on the tree, and a node found holds the
same record in both. -/
theorem C15_insert_keeps_other_keys (t : bst_node_t) (r : temp_humid_data_t) (k : Int)
    (hk : k ≠ r.timestamp) :
    (search_node (insert_node t r) k = .NULL ↔ search_node t k = .NULL) ∧
    node_data (search_node (insert_node t r) k) = node_data (search_node t k) := by
  have h := search_node_insert_other t r k hk
  refine ⟨?_, h⟩
  rw [← node_data_eq_none, ← node_data_eq_none, h]

/-- Witness for C15: looking up 1002 before and after inserting `data4`. -/
theorem C15_insert_keeps_other_keys_witness :
    (1002 : Int) ≠ data4.timestamp ∧
    (search_node (insert_node (insert_all .NULL [data1, data2, data3]) data4) 1002 = .NULL ↔
      search_node (insert_all .NULL [data1, data2, data3]) 1002 = .NULL) ∧
    node_data (search_node (insert_node (insert_all .NULL [data1, data2, data3]) data4) 1002) =
      node_data (search_node (insert_all .NULL [data1, data2, data3]) 1002) :=
  ⟨by decide,
    C15_insert_keeps_other_keys (insert_all .NULL [data1, data2, data3]) data4 1002
      (by decide)⟩

theorem search_node_is_node_of (t : bst_node_t) (k : Int) (d : temp_humid_data_t)
    (l r : bst_node_t) (h : search_node t k = .node d l r) :
    is_node_of (.node d l r) t := by
  induction t with
  | NULL => simp [search_node] at h
  | node e tl tr ihl ihr =>
    unfold search_node at h
    split_ifs at h
    · exact Or.inl h.symm
    · exact Or.inr (Or.inl (ihl h))
    · exact Or.inr (Or.inr (ihr h))

theorem mem_search_node_in_tree (t : bst_node_t) (m : Memory) (p : Nat) (fp : List Nat)
    (fuel : Nat) (k : Int) (q : Nat) (h : Mem.tree_at m.cell p t fp)
    (hs : Mem.search_node fuel m p k = .ok q) (hq : q ≠ 0) :
    q ∈ fp ∧ ∃ c, m.cell q = some c ∧ c.data.timestamp = k := by
  induction t generalizing p fp fuel with
  | NULL =>
    obtain ⟨hp, _⟩ := h
    subst hp
    cases fuel with
    | zero => simp [Mem.search_node] at hs
    | succ f =>
      simp only [Mem.search_node, if_true] at hs
      injection hs with hs
      exact absurd hs.symm hq
  | node d l r ihl ihr =>
    obtain ⟨hp, pl, pr, fl, fr, hc, hl, hr, hfp, _⟩ := h
    subst hfp
    cases fuel with
    | zero => simp [Mem.search_node] at hs
    | succ f =>
      unfold Mem.search_node at hs
      rw [if_neg hp, hc] at hs
      simp only at hs
      split_ifs at hs with h1 h2
      · injection hs with hs
        subst hs
        exact ⟨by simp, _, hc, h1⟩
      · obtain ⟨hm, hcell⟩ := ihl pl fl f hl hs
        exact ⟨by simp [hm], hcell⟩
      · obtain ⟨hm, hcell⟩ := ihr pr fr f hr hs
        exact ⟨by simp [hm], hcell⟩

/-- C16: for every tree, ordered or not, and every timestamp `k`, a node
returned by `search_node` is a node of the tree and its timestamp is `k`; on
a well-formed tree in memory the address returned, when not `NULL`, is the
address of one of the nodes of the tree and the cell there has timestamp `k`. -/
theorem C16_search_returns_node_with_key (t : bst_node_t) (k : Int) :
    (∀ d l r, search_node t k = .node d l r →
      is_node_of (.node d l r) t ∧ d ∈ inorder_traversal t ∧ d.timestamp = k) ∧
    (∀ (m : Memory) (p : Nat) (fp : List Nat) (fuel q : Nat),
      Mem.tree_at m.cell p t fp → Mem.search_node fuel m p k = .ok q → q ≠ 0 →
        q ∈ fp ∧ ∃ c, m.cell q = some c ∧ c.data.timestamp = k) := by
  refine ⟨fun d l r h => ?_, fun m p fp fuel q h hs hq =>
    mem_search_node_in_tree t m p fp fuel k q h hs hq⟩
  obtain ⟨hk, hmem⟩ := search_node_sound t k d l r h
  exact ⟨search_node_is_node_of t k d l r h, hmem, hk⟩

/-- Witness for C16: the search for 1002 of `test_bst_operations`, on the
tree and on its copy in memory at addresses `1` to `4`. -/
theorem C16_search_returns_node_with_key_witness :
    search_node (insert_all .NULL [data1, data2, data3, data4]) 1002 =
      .node data2 .NULL (.node data4 .NULL .NULL) ∧
    (is_node_of (.node data2 .NULL (.node data4 .NULL .NULL))
        (insert_all .NULL [data1, data2, data3, data4]) ∧
      data2 ∈ inorder_traversal (insert_all .NULL [data1, data2, data3, data4]) ∧
      data2.timestamp = 1002) ∧
    Mem.search_node 4 Mem.test_tree 1 1002 = .ok 2 ∧
    (2 ∈ [3, 4, 2, 1] ∧ ∃ c, Mem.test_tree.cell 2 = some c ∧ c.data.timestamp = 1002) :=
  ⟨by decide,
    (C16_search_returns_node_with_key (insert_all .NULL [data1, data2, data3, data4]) 1002).1
      data2 .NULL (.node data4 .NULL .NULL) (by decide),
    by decide,
    (C16_search_returns_node_with_key (insert_all .NULL [data1, data2, data3, data4]) 1002).2
      Mem.test_tree 1 [3, 4, 2, 1] 4 2 test_tree_at (by decide) (by decide)⟩

/-! ## Insertion order and the traversal (C17) -/

theorem inorder_pairwise_records (t : bst_node_t) (ht : bst_ordered t) :
    (inorder_traversal t).Pairwise (fun a b => a.timestamp < b.timestamp) :=
  List.pairwise_map.mp (inorder_sorted_of_bst_ordered t ht)

theorem mem_inorder_build_distinct (records : List temp_humid_data_t)
    (hd : (records.map (·.timestamp)).Nodup) (x : temp_humid_data_t) :
    x ∈ inorder_traversal (insert_all .NULL records) ↔ x ∈ records := by
  rw [mem_inorder_build]
  constructor
  · exact List.mem_of_find?_eq_some
  · intro hx
    have hsome : (records.find? (fun y => decide (y.timestamp = x.timestamp))).isSome := by
      rw [List.find?_isSome]
      exact ⟨x, hx, by simp⟩
    obtain ⟨d, hfind⟩ := Option.isSome_iff_exists.mp hsome
    have hdk : d.timestamp = x.timestamp := by simpa using List.find?_some hfind
    have hdx : d = x :=
      List.inj_on_of_nodup_map hd (List.mem_of_find?_eq_some hfind) hx hdk
    rw [hfind, hdx]

theorem inorder_eq_of_same_records (t1 t2 : bst_node_t) (h1 : bst_ordered t1)
    (h2 : bst_ordered t2)
    (hmem : ∀ x, x ∈ inorder_traversal t1 ↔ x ∈ inorder_traversal t2) :
    inorder_traversal t1 = inorder_traversal t2 := by
  have hs1 := inorder_pairwise_records t1 h1
  have hs2 := inorder_pairwise_records t2 h2
  have hn1 : (inorder_traversal t1).Nodup := hs1.imp (fun h heq => by
    rw [heq] at h
    exact lt_irrefl _ h)
  have hn2 : (inorder_traversal t2).Nodup := hs2.imp (fun h heq => by
    rw [heq] at h
    exact lt_irrefl _ h)
  have hperm : (inorder_traversal t1).Perm (inorder_traversal t2) :=
    (List.perm_ext_iff_of_nodup hn1 hn2).mpr hmem
  haveI : IsAntisymm temp_humid_data_t (fun a b => a.timestamp < b.timestamp) :=
    ⟨fun a b hab hba => absurd (lt_trans hab hba) (lt_irrefl _)⟩
  exact List.eq_of_perm_of_sorted hperm hs1 hs2

/-- C17: for every list of records with pairwise distinct timestamps and every
permutation of it, inserting the records into the empty tree in the original
and in the permuted order gives trees with the same in-order traversal. -/
theorem C17_inorder_independent_of_order (records permuted : List temp_humid_data_t)
    (hd : (records.map (·.timestamp)).Nodup) (hp : permuted.Perm records) :
    inorder_traversal (insert_all .NULL permuted) =
      inorder_traversal (insert_all .NULL records) := by
  have hd2 : (permuted.map (·.timestamp)).Nodup := (hp.map _).nodup_iff.mpr hd
  apply inorder_eq_of_same_records _ _ (bst_ordered_insert_all permuted .NULL trivial)
    (bst_ordered_insert_all records .NULL trivial)
  intro x
  rw [mem_inorder_build_distinct permuted hd2, mem_inorder_build_distinct records hd]
  exact hp.mem_iff

/-- Witness for C17: the test records in the order of `test_bst_operations`
and in the order of scenario 1 of the spec; the tree shapes differ, the
traversals do not. -/
theorem C17_inorder_independent_of_order_witness :
    ([data1, data2, data3, data4].map (·.timestamp)).Nodup ∧
    [data2, data3, data4, data1].Perm [data1, data2, data3, data4] ∧
    insert_all .NULL [data2, data3, data4, data1] ≠
      insert_all .NULL [data1, data2, data3, data4] ∧
    inorder_traversal (insert_all .NULL [data2, data3, data4, data1]) =
      inorder_traversal (insert_all .NULL [data1, data2, data3, data4]) :=
  ⟨by decide, by decide, by decide,
    C17_inorder_independent_of_order [data1, data2, data3, data4]
      [data2, data3, data4, data1] (by decide) (by decide)⟩
